import Mathlib

/-!
Verification of the `ringbuf` crate (`src/ringbuf/src/lib.rs`): a
fixed-capacity FIFO byte buffer backed by a `VecDeque<u8>`, with an
overwrite-oldest-on-overflow `push`, a non-consuming `peek`, and a
consuming `skip`.

The shallow embedding models the `VecDeque<u8>` as a `List Nat` holding
the logical byte sequence in FIFO order (front of the list = oldest
byte).  Internal storage layout (the two `as_slices` halves,
`make_contiguous`) is below this abstraction: `make_contiguous` never
changes the element sequence, so at this level it is the identity.
`panic!("oob")` is modelled by returning `none` in the first component,
paired with the buffer state as it stands at the moment of the panic.
All `usize` arithmetic in the source is on values where Rust's checked
subtraction coincides with truncated subtraction whenever the buffer
invariant `queue.len() ≤ capacity` holds, so `Nat` subtraction is used.
-/

/-- `struct RingBuffer { queue: VecDeque<u8>, capacity: usize }`. -/
@[ext]
structure RingBuffer where
  queue : List Nat
  capacity : Nat
deriving DecidableEq, Repr

namespace RingBuffer

/-- `RingBuffer::new(capacity)`: empty queue, recorded capacity. -/
def new (capacity : Nat) : RingBuffer :=
  { queue := [], capacity := capacity }

/-- `read_available`: `buffer.queue.len()`. -/
def read_available (b : RingBuffer) : Nat :=
  b.queue.length

/-- `write_available`: `buffer.capacity - buffer.queue.len()`. -/
def write_available (b : RingBuffer) : Nat :=
  b.capacity - b.queue.length

/-- `RingBuffer::peek(n)`: panics (`none`) when `n > queue.len()`,
otherwise returns the first `n` bytes.  `make_contiguous` only
rearranges storage, so the state component is the buffer itself in
both branches; on the panic branch no mutation has happened before
the `panic!`. -/
def peek (b : RingBuffer) (n : Nat) : Option (List Nat) × RingBuffer :=
  if n > b.queue.length then (none, b)
  else (some (b.queue.take n), b)

/-- `RingBuffer::skip(n)`: panics (`none`) when `n > queue.len()`,
otherwise `queue.drain(..n)` removes the first `n` bytes.  On the
panic branch the state is untouched, as the check precedes the
`drain`. -/
def skip (b : RingBuffer) (n : Nat) : Option Unit × RingBuffer :=
  if n > b.queue.length then (none, b)
  else (some (), { b with queue := b.queue.drop n })

/-- `RingBuffer::push(bytes)`: the three-branch overwrite policy of
`lib.rs` lines 52–67, transcribed branch for branch. -/
def push (b : RingBuffer) (bytes : List Nat) : RingBuffer :=
  let leeway := b.capacity - b.queue.length
  if bytes.length ≤ leeway then
    -- There's enough leeway to insert all bytes.
    { b with queue := b.queue ++ bytes }
  else if bytes.length ≥ b.capacity then
    -- Not enough room to fit everything, drop all contents and extend from the tail.
    { b with queue := bytes.drop (bytes.length - b.capacity) }
  else
    -- Make enough room to fit everything.
    { b with queue := b.queue.drop (bytes.length - leeway) ++ bytes }

/-- The buffer states reachable through the public operations, starting
from `RingBuffer::new`.  `peek` and `skip` thread their state component;
`push` always succeeds. -/
inductive Reachable : RingBuffer → Prop
  | construct (capacity : Nat) : Reachable (new capacity)
  | push_step (b : RingBuffer) (bytes : List Nat) :
      Reachable b → Reachable (push b bytes)
  | skip_step (b : RingBuffer) (n : Nat) :
      Reachable b → Reachable (skip b n).2
  | peek_step (b : RingBuffer) (n : Nat) :
      Reachable b → Reachable (peek b n).2

end RingBuffer

namespace RingBuffer

/-- `push` keeps the queue length within capacity. -/
theorem push_len_le (b : RingBuffer) (bytes : List Nat)
    (h : b.queue.length ≤ b.capacity) :
    (push b bytes).queue.length ≤ (push b bytes).capacity := by
  unfold push
  by_cases h1 : bytes.length ≤ b.capacity - b.queue.length
  · simp only [h1, if_pos]
    simp [List.length_append]
    omega
  · simp only [h1, if_neg, if_false]
    by_cases h2 : bytes.length ≥ b.capacity
    · simp only [h2, if_pos]
      simp [List.length_drop]
      omega
    · simp only [h2, if_neg, if_false]
      simp [List.length_append, List.length_drop]
      omega

/-- Every reachable state satisfies the buffer invariant
`queue.len() ≤ capacity`. -/
theorem reachable_len_le (b : RingBuffer) (h : Reachable b) :
    b.queue.length ≤ b.capacity := by
  induction h with
  | construct capacity => simp [new]
  | push_step b bytes _ ih => exact push_len_le b bytes ih
  | skip_step b n _ ih =>
      unfold skip
      by_cases hn : n > b.queue.length
      · simpa [hn] using ih
      · simp [hn, List.length_drop]
        omega
  | peek_step b n _ ih =>
      unfold peek
      by_cases hn : n > b.queue.length
      · simpa [hn] using ih
      · simpa [hn] using ih

/-- `push` never changes the capacity. -/
theorem push_capacity (b : RingBuffer) (bytes : List Nat) :
    (push b bytes).capacity = b.capacity := by
  unfold push
  by_cases h1 : bytes.length ≤ b.capacity - b.queue.length
  · simp [h1]
  · by_cases h2 : bytes.length ≥ b.capacity
    · simp [h1, h2]
    · simp [h1, h2]

/-- The queue after `push`, in closed form: the last
`min capacity (old length + pushed length)` bytes of the concatenation,
assuming the buffer invariant. -/
theorem push_queue_eq (b : RingBuffer) (bytes : List Nat)
    (h : b.queue.length ≤ b.capacity) :
    (push b bytes).queue =
      (b.queue ++ bytes).drop (b.queue.length + bytes.length - b.capacity) := by
  unfold push
  by_cases h1 : bytes.length ≤ b.capacity - b.queue.length
  · have h0 : b.queue.length + bytes.length - b.capacity = 0 := by omega
    simp [h1, h0]
  · by_cases h2 : bytes.length ≥ b.capacity
    · have hsplit : b.queue.length + bytes.length - b.capacity =
          b.queue.length + (bytes.length - b.capacity) := by omega
      simp [h1, h2, hsplit, List.drop_append]
    · have hle : b.queue.length + bytes.length - b.capacity ≤ b.queue.length := by
        omega
      have heq : bytes.length - (b.capacity - b.queue.length) =
          b.queue.length + bytes.length - b.capacity := by omega
      simp only [h1, h2, if_neg, if_false, ge_iff_le, not_le]
      rw [heq, List.drop_append_of_le_length hle]

end RingBuffer

namespace RingBuffer

/-- Modelled from the spec for the refinement claim: the unified
characterisation of `Push` — the contents after a push are the last
`min capacity (length before + pushed length)` bytes of the
concatenation `contents_before ++ bytes`. -/
def pushSpecUnified (b : RingBuffer) (bytes : List Nat) : RingBuffer :=
  { b with
    queue := (b.queue ++ bytes).drop
      ((b.queue ++ bytes).length - min b.capacity (b.queue.length + bytes.length)) }

/-- C1: for every reachable buffer state and pushed byte sequence,
`push` succeeds (it is a total function, with no error path, including
empty and oversized inputs) and afterwards the readable length is
`min capacity (length before + pushed length)`. -/
theorem push_postcondition_length (b : RingBuffer) (bytes : List Nat)
    (h : Reachable b) :
    read_available (push b bytes) =
      min b.capacity (read_available b + bytes.length) := by
  have hinv := reachable_len_le b h
  have hq := push_queue_eq b bytes hinv
  simp only [read_available, hq, List.length_drop, List.length_append]
  omega

/-- C1 witness at a concrete reachable state. -/
theorem push_postcondition_length_witness :
    read_available (push (push (new 4) [1, 2, 3]) [9, 9, 9]) =
      min (push (new 4) [1, 2, 3]).capacity
        (read_available (push (new 4) [1, 2, 3]) + [9, 9, 9].length) :=
  push_postcondition_length (push (new 4) [1, 2, 3]) [9, 9, 9]
    (Reachable.push_step _ _ (Reachable.construct 4))

/-- C2: when the pushed sequence is at least as long as the capacity,
the resulting contents are exactly the last `capacity` bytes of the
pushed sequence, in order; no prior byte survives.  Stated under the
buffer invariant I1 (`length ≤ capacity`), which holds in every
reachable state. -/
theorem push_oversized_keeps_tail (b : RingBuffer) (bytes : List Nat)
    (hinv : b.queue.length ≤ b.capacity)
    (hm : bytes.length ≥ b.capacity) :
    (push b bytes).queue = bytes.drop (bytes.length - b.capacity) := by
  have hq := push_queue_eq b bytes hinv
  have hsplit : b.queue.length + bytes.length - b.capacity =
      b.queue.length + (bytes.length - b.capacity) := by omega
  rw [hq, hsplit, List.drop_append]

/-- C2 witness: capacity 4, contents `[3,1,2,3]`, pushing 5 bytes. -/
theorem push_oversized_keeps_tail_witness :
    (⟨[3, 1, 2, 3], 4⟩ : RingBuffer).queue.length ≤
        (⟨[3, 1, 2, 3], 4⟩ : RingBuffer).capacity ∧
      (push (⟨[3, 1, 2, 3], 4⟩ : RingBuffer) [1, 2, 3, 4, 5]).queue =
        [1, 2, 3, 4, 5].drop
          ([1, 2, 3, 4, 5].length - (⟨[3, 1, 2, 3], 4⟩ : RingBuffer).capacity) :=
  ⟨by decide, push_oversized_keeps_tail ⟨[3, 1, 2, 3], 4⟩ [1, 2, 3, 4, 5]
    (by decide) (by decide)⟩

/-- C3: with `leeway = capacity − length`, when `leeway < m < capacity`
the push drops exactly `m − leeway` bytes from the front of the
existing contents and appends all `m` pushed bytes at the back,
preserving the order of the survivors. -/
theorem push_partial_drop_front (b : RingBuffer) (bytes : List Nat)
    (h1 : b.capacity - b.queue.length < bytes.length)
    (h2 : bytes.length < b.capacity) :
    (push b bytes).queue =
      b.queue.drop (bytes.length - (b.capacity - b.queue.length)) ++ bytes := by
  unfold push
  simp only [not_le.mpr h1, ge_iff_le, not_le.mpr h2, if_neg, if_false,
    not_false_eq_true]

/-- C3 witness: capacity 4, contents `[1,2,3]`, pushing 3 bytes
(leeway 1, drops 2 from the front). -/
theorem push_partial_drop_front_witness :
    (⟨[1, 2, 3], 4⟩ : RingBuffer).capacity -
          (⟨[1, 2, 3], 4⟩ : RingBuffer).queue.length < ([1, 2, 3] : List Nat).length ∧
      (push (⟨[1, 2, 3], 4⟩ : RingBuffer) [1, 2, 3]).queue =
        (⟨[1, 2, 3], 4⟩ : RingBuffer).queue.drop
            (([1, 2, 3] : List Nat).length -
              ((⟨[1, 2, 3], 4⟩ : RingBuffer).capacity -
                (⟨[1, 2, 3], 4⟩ : RingBuffer).queue.length)) ++ [1, 2, 3] :=
  ⟨by decide, push_partial_drop_front ⟨[1, 2, 3], 4⟩ [1, 2, 3]
    (by decide) (by decide)⟩

/-- C4: when the pushed sequence fits in the leeway, `push` appends all
of it and drops nothing; and pushing zero bytes leaves the contents
unchanged in every state. -/
theorem push_fits_appends (b : RingBuffer) (bytes : List Nat) :
    (bytes.length ≤ b.capacity - b.queue.length →
        (push b bytes).queue = b.queue ++ bytes) ∧
      push b [] = b := by
  constructor
  · intro hfit
    unfold push
    simp [hfit]
  · simp [push]

/-- C4 witness: empty capacity-4 buffer, pushing 3 bytes. -/
theorem push_fits_appends_witness :
    (([1, 2, 3] : List Nat).length ≤
        (new 4).capacity - (new 4).queue.length →
        (push (new 4) [1, 2, 3]).queue = (new 4).queue ++ [1, 2, 3]) ∧
      push (new 4) [] = new 4 :=
  push_fits_appends (new 4) [1, 2, 3]

/-- C5 (invariant I1): in every state reachable by any sequence of
`new`, `push`, `skip`, `peek`, the readable length lies between
`0` and `capacity`; every operation preserves this. -/
theorem invariant_len_between (b : RingBuffer) (h : Reachable b) :
    0 ≤ read_available b ∧ read_available b ≤ b.capacity :=
  ⟨Nat.zero_le _, reachable_len_le b h⟩

/-- C5 witness: a state reached by construct, push, push, skip. -/
theorem invariant_len_between_witness :
    0 ≤ read_available (skip (push (push (new 4) [1, 2, 3]) [1, 2, 3]) 2).2 ∧
      read_available (skip (push (push (new 4) [1, 2, 3]) [1, 2, 3]) 2).2 ≤
        (skip (push (push (new 4) [1, 2, 3]) [1, 2, 3]) 2).2.capacity :=
  invariant_len_between _
    (Reachable.skip_step _ 2
      (Reachable.push_step _ _ (Reachable.push_step _ _ (Reachable.construct 4))))

end RingBuffer

namespace RingBuffer

/-- C6: for `n ≤ length(contents)`, `peek` returns exactly the first
`n` bytes of the contents in order, does not modify the logical
contents, and leaves `read_available` unchanged. -/
theorem peek_first_n (b : RingBuffer) (n : Nat)
    (hn : n ≤ read_available b) :
    (peek b n).1 = some (b.queue.take n) ∧
      (peek b n).2 = b ∧
      read_available (peek b n).2 = read_available b := by
  have hlt : ¬ n > b.queue.length := not_lt.mpr hn
  unfold peek
  simp [hlt]

/-- C6 witness: peeking 2 bytes of a 3-byte buffer. -/
theorem peek_first_n_witness :
    2 ≤ read_available (⟨[5, 6, 7], 4⟩ : RingBuffer) ∧
      ((peek (⟨[5, 6, 7], 4⟩ : RingBuffer) 2).1 =
          some ((⟨[5, 6, 7], 4⟩ : RingBuffer).queue.take 2) ∧
        (peek (⟨[5, 6, 7], 4⟩ : RingBuffer) 2).2 = (⟨[5, 6, 7], 4⟩ : RingBuffer) ∧
        read_available (peek (⟨[5, 6, 7], 4⟩ : RingBuffer) 2).2 =
          read_available (⟨[5, 6, 7], 4⟩ : RingBuffer)) :=
  ⟨by decide, peek_first_n ⟨[5, 6, 7], 4⟩ 2 (by decide)⟩

/-- C7: for `n ≤ length(contents)`, `skip` removes exactly the first
`n` bytes (the remainder keeps its relative order, being the `drop` of
the original list) and `read_available` decreases by exactly `n`;
moreover `skip (read_available)` always leaves `read_available = 0`. -/
theorem skip_removes_front (b : RingBuffer) (n : Nat) :
    (n ≤ read_available b →
        (skip b n).2.queue = b.queue.drop n ∧
          read_available (skip b n).2 + n = read_available b) ∧
      read_available (skip b (read_available b)).2 = 0 := by
  constructor
  · intro hn
    have hlt : ¬ n > b.queue.length := not_lt.mpr hn
    unfold skip
    simp [hlt, read_available, List.length_drop]
    omega
  · unfold skip
    simp [read_available]

/-- C7 witness: skipping 2 bytes of a 3-byte buffer. -/
theorem skip_removes_front_witness :
    (2 ≤ read_available (⟨[5, 6, 7], 4⟩ : RingBuffer) →
        (skip (⟨[5, 6, 7], 4⟩ : RingBuffer) 2).2.queue =
            (⟨[5, 6, 7], 4⟩ : RingBuffer).queue.drop 2 ∧
          read_available (skip (⟨[5, 6, 7], 4⟩ : RingBuffer) 2).2 + 2 =
            read_available (⟨[5, 6, 7], 4⟩ : RingBuffer)) ∧
      read_available
          (skip (⟨[5, 6, 7], 4⟩ : RingBuffer)
            (read_available (⟨[5, 6, 7], 4⟩ : RingBuffer))).2 = 0 :=
  skip_removes_front ⟨[5, 6, 7], 4⟩ 2

/-- C8: `peek n` and `skip n` panic exactly when `n > read_available`,
and a panicking call leaves the buffer state unchanged (the bounds
check precedes any mutation). -/
theorem peek_skip_panic_iff (b : RingBuffer) (n : Nat) :
    ((peek b n).1 = none ↔ n > read_available b) ∧
      ((skip b n).1 = none ↔ n > read_available b) ∧
      ((peek b n).1 = none → (peek b n).2 = b) ∧
      ((skip b n).1 = none → (skip b n).2 = b) := by
  unfold peek skip read_available
  by_cases hn : n > b.queue.length
  · simp [hn]
  · simp [hn]

/-- C8 witness: peeking or skipping 5 bytes of a 2-byte buffer. -/
theorem peek_skip_panic_iff_witness :
    ((peek (⟨[1, 2], 8⟩ : RingBuffer) 5).1 = none ↔
        5 > read_available (⟨[1, 2], 8⟩ : RingBuffer)) ∧
      ((skip (⟨[1, 2], 8⟩ : RingBuffer) 5).1 = none ↔
        5 > read_available (⟨[1, 2], 8⟩ : RingBuffer)) ∧
      ((peek (⟨[1, 2], 8⟩ : RingBuffer) 5).1 = none →
        (peek (⟨[1, 2], 8⟩ : RingBuffer) 5).2 = (⟨[1, 2], 8⟩ : RingBuffer)) ∧
      ((skip (⟨[1, 2], 8⟩ : RingBuffer) 5).1 = none →
        (skip (⟨[1, 2], 8⟩ : RingBuffer) 5).2 = (⟨[1, 2], 8⟩ : RingBuffer)) :=
  peek_skip_panic_iff ⟨[1, 2], 8⟩ 5

/-- C9: in every reachable state, `read_available + write_available =
capacity`; `read_available` returns the contents length and
`write_available` returns `capacity − length`.  Both are pure
functions of the state in this embedding. -/
theorem readable_writable_complement (b : RingBuffer) (h : Reachable b) :
    read_available b + write_available b = b.capacity ∧
      read_available b = b.queue.length ∧
      write_available b = b.capacity - b.queue.length := by
  have hinv := reachable_len_le b h
  unfold read_available write_available
  omega

/-- C9 witness at a concrete reachable state. -/
theorem readable_writable_complement_witness :
    read_available (push (new 4) [1, 2]) + write_available (push (new 4) [1, 2]) =
        (push (new 4) [1, 2]).capacity ∧
      read_available (push (new 4) [1, 2]) = (push (new 4) [1, 2]).queue.length ∧
      write_available (push (new 4) [1, 2]) =
        (push (new 4) [1, 2]).capacity - (push (new 4) [1, 2]).queue.length :=
  readable_writable_complement (push (new 4) [1, 2])
    (Reachable.push_step _ _ (Reachable.construct 4))

/-- C10: on every reachable state the three-branch `push` coincides
with the unified characterisation: the contents after the push are the
last `min capacity (length before + m)` bytes of
`contents_before ++ bytes`. -/
theorem push_refines_unified (b : RingBuffer) (bytes : List Nat)
    (h : Reachable b) :
    push b bytes = pushSpecUnified b bytes := by
  have hinv := reachable_len_le b h
  have hq := push_queue_eq b bytes hinv
  have hc := push_capacity b bytes
  unfold pushSpecUnified
  ext1
  · rw [hq]
    congr 1
    simp [List.length_append]
    omega
  · rw [hc]

/-- C10 witness: a reachable one-byte buffer, pushing two bytes. -/
theorem push_refines_unified_witness :
    push (push (new 2) [7]) [8, 9] = pushSpecUnified (push (new 2) [7]) [8, 9] :=
  push_refines_unified (push (new 2) [7]) [8, 9]
    (Reachable.push_step _ _ (Reachable.construct 2))

end RingBuffer
